import Mathlib

/-!
Verification of the concurrent binary search tree from `src/ch30/demo.c`
(`btree.h` + implementation).  The tree stores heap-duplicated string keys
and opaque values (modelled as strings), ordered by `strcmp`.  Locking
behaviour is modelled as an explicit event trace; allocation fallibility
(`calloc`/`strdup`) as a boolean oracle.
-/

namespace BtreeDemo

/-! ## String comparison (`strcmp`) -/

/-- `strcmp` on the character lists of two strings, comparing code points,
matching byte-wise `strcmp` on (NUL-free) UTF-8 C strings. -/
def ccmp : List Char → List Char → Ordering
  | [], [] => .eq
  | [], _ :: _ => .lt
  | _ :: _, [] => .gt
  | x :: xs, y :: ys =>
    if x.toNat < y.toNat then .lt
    else if y.toNat < x.toNat then .gt
    else ccmp xs ys

/-- C `strcmp`, as a three-way comparison on strings. -/
def strcmp (a b : String) : Ordering := ccmp a.data b.data

/-! ## Data model

`bt_node_t` from `btree.h`: key, value, left/right children (the per-node
mutex is modelled in the lock-event traces of the operations, not in the
node itself).  A null node pointer is `leaf`.  Values (`void *`) are
modelled as strings. -/

inductive BTree where
  | leaf : BTree
  | node (left : BTree) (key : String) (value : String) (right : BTree) : BTree
deriving DecidableEq

namespace BTree

/-- In-order key sequence of the tree. -/
def keys : BTree → List String
  | .leaf => []
  | .node l k _ r => keys l ++ [k] ++ keys r

/-- In-order value sequence of the tree (one entry per node). -/
def inorderVals : BTree → List String
  | .leaf => []
  | .node l _ v r => inorderVals l ++ [v] ++ inorderVals r

/-- The binary-search-tree ordering invariant: all keys in the left subtree
compare strictly less than the node's key under `strcmp`, all keys in the
right subtree strictly greater, recursively. -/
def isBST : BTree → Bool
  | .leaf => true
  | .node l k _ r =>
    (keys l).all (fun x => decide (strcmp x k = .lt)) &&
    (keys r).all (fun x => decide (strcmp k x = .lt)) &&
    isBST l && isBST r

/-- The subtree rooted at the node whose key matches the search key, found
by the same comparison-driven descent every operation of the code uses. -/
def subtreeAt : BTree → String → Option BTree
  | .leaf, _ => none
  | .node l k v r, key =>
    match strcmp key k with
    | .eq => some (.node l k v r)
    | .lt => subtreeAt l key
    | .gt => subtreeAt r key

/-- Key and value of the leftmost (minimum) node of the tree. -/
def minKV : BTree → Option (String × String)
  | .leaf => none
  | .node l k v _ => if l = .leaf then some (k, v) else minKV l

/-- The key stored at the root node (the mutex `bt_add`/`bt_delete` lock
first); `""` for an empty tree, where no node mutex exists. -/
def rootKey : BTree → String
  | .leaf => ""
  | .node _ k _ _ => k

end BTree

/-- The shape of a tree together with its stored keys, forgetting values:
two trees with the same `keyShapeList` have exactly the same nodes holding
exactly the same key storage, node for node (pre-order with explicit leaf
markers, which determines the shape uniquely). -/
def keyShapeList : BTree → List (Option String)
  | .leaf => [none]
  | .node l k _ r => some k :: (keyShapeList l ++ keyShapeList r)

/-! ## Lock events

Each operation is modelled to also emit the sequence of lock operations the
C code performs: the tree-wide `pthread_rwlock_t` (`rdlock`/`wrlock`/
`rwunlock`) and the per-node `pthread_mutex_t` (`mlock`/`munlock`),
identifying a node's mutex by the node's key. -/

inductive Ev where
  | rdlock : Ev
  | wrlock : Ev
  | rwunlock : Ev
  | mlock (k : String) : Ev
  | munlock (k : String) : Ev
deriving DecidableEq

/-- The trace fragment for `if (parent) pthread_mutex_unlock(&parent->mtx)`. -/
def unlockOpt : Option String → List Ev
  | none => []
  | some p => [.munlock p]

/-- The multiset of node mutexes held after running a trace from `held`
(an unlock of a mutex that is not held is a no-op for accounting). -/
def heldAfter (held : Multiset String) : List Ev → Multiset String
  | [] => held
  | .mlock k :: evs => heldAfter (k ::ₘ held) evs
  | .munlock k :: evs => heldAfter (held.erase k) evs
  | _ :: evs => heldAfter held evs

/-- Number of tree-wide lock acquisitions (`rdlock` or `wrlock`) in a trace. -/
def rwAcquires (evs : List Ev) : Nat :=
  evs.countP fun e => match e with
    | .rdlock => true
    | .wrlock => true
    | _ => false

/-- Number of tree-wide lock releases in a trace. -/
def rwReleases (evs : List Ev) : Nat :=
  evs.countP fun e => match e with
    | .rwunlock => true
    | _ => false

/-! ## Error codes (Linux `errno` values used by the code) -/

def EINVAL : Int := 22
def ENOMEM : Int := 12

/-! ## `bt_lookup`

Readers take the tree rwlock shared, then descend locking each inspected
node's mutex while comparing, releasing it before moving to the child.
`value_out` is only written on a hit, so the result is `some value` on
success and `none` on not-found. -/

/-- Descent loop of `bt_lookup` (`while (cur) { ... }`). -/
def bt_lookupGo (key : String) : BTree → Option String × List Ev
  | .leaf => (none, [])
  | .node l k v r =>
    match strcmp key k with
    | .eq => (some v, [.mlock k, .munlock k])
    | .lt =>
      let R := bt_lookupGo key l
      (R.1, [.mlock k, .munlock k] ++ R.2)
    | .gt =>
      let R := bt_lookupGo key r
      (R.1, [.mlock k, .munlock k] ++ R.2)

/-- `bt_lookup` on a (non-null) tree and key: acquires the rwlock in read
mode around the descent. -/
def bt_lookup (t : BTree) (key : String) : Option String × List Ev :=
  let R := bt_lookupGo key t
  (R.1, [.rdlock] ++ R.2 ++ [.rwunlock])

/-! ## `bt_add`

Writers take the tree rwlock exclusively.  An empty tree gets a fresh root;
otherwise the code locks the root's mutex and descends hand-over-hand: on
an equal key it replaces the value in place (`rc = 1`); on an empty child
slot it allocates a node there (`rc = 0`, or `ENOMEM` if `node_new` fails);
otherwise it locks the child, unlocks the previous parent's mutex and
continues.  `alloc` is the allocation oracle for the single `node_new`
call an invocation can make. -/

structure AddRes where
  tree : BTree
  rc : Int
  evs : List Ev
deriving DecidableEq

/-- Descent loop of `bt_add` (`for (;;) { ... }`), on a non-empty subtree
whose root mutex is already locked; `p` is the key of the locked parent
node (if any), released per `if (parent) pthread_mutex_unlock(...)`. -/
def bt_addGo (alloc : Bool) (key value : String) : BTree → Option String → AddRes
  | .leaf, _ => ⟨.leaf, 0, []⟩
  | .node l k v r, p =>
    match strcmp key k with
    | .eq => ⟨.node l k value r, 1, [.munlock k] ++ unlockOpt p⟩
    | .lt =>
      if l = .leaf then
        if alloc then
          ⟨.node (.node .leaf key value .leaf) k v r, 0, [.munlock k] ++ unlockOpt p⟩
        else
          ⟨.node l k v r, ENOMEM, [.munlock k] ++ unlockOpt p⟩
      else
        let R := bt_addGo alloc key value l (some k)
        ⟨.node R.tree k v r, R.rc, [.mlock l.rootKey] ++ unlockOpt p ++ R.evs⟩
    | .gt =>
      if r = .leaf then
        if alloc then
          ⟨.node l k v (.node .leaf key value .leaf), 0, [.munlock k] ++ unlockOpt p⟩
        else
          ⟨.node l k v r, ENOMEM, [.munlock k] ++ unlockOpt p⟩
      else
        let R := bt_addGo alloc key value r (some k)
        ⟨.node l k v R.tree, R.rc, [.mlock r.rootKey] ++ unlockOpt p ++ R.evs⟩

/-- `bt_add` on a (non-null) tree and key. -/
def bt_add (alloc : Bool) (t : BTree) (key value : String) : AddRes :=
  match t with
  | .leaf =>
    if alloc then ⟨.node .leaf key value .leaf, 0, [.wrlock, .rwunlock]⟩
    else ⟨.leaf, ENOMEM, [.wrlock, .rwunlock]⟩
  | .node l k v r =>
    let R := bt_addGo alloc key value (.node l k v r) none
    ⟨R.tree, R.rc, [.wrlock, .mlock k] ++ R.evs ++ [.rwunlock]⟩

/-! ## `find_min_locked` and `bt_delete` -/

structure MinRes where
  key : String
  val : String
  rest : BTree
  par : String
  evs : List Ev
deriving DecidableEq

/-- `find_min_locked`, fused with the successor splice the caller performs:
descends the left spine of the given (non-empty) subtree, whose root mutex
the caller (`bt_delete`) has just locked; `p` is the key of the node passed
as `start` (the node being deleted, or, in recursive calls, the current
parent).  Returns the minimum node's key and value, the subtree with that
node spliced out (its right child taking its slot), the key of the
minimum's parent, and the mutex events of the descent loop.  Note the
first loop iteration unlocks `start` itself, exactly as the C does. -/
def find_min_locked : BTree → String → MinRes
  | .leaf, p => ⟨"", "", .leaf, p, []⟩
  | .node l k v r, p =>
    if l = .leaf then ⟨k, v, r, p, []⟩
    else
      let R := find_min_locked l k
      ⟨R.key, R.val, .node R.rest k v r, R.par, [.mlock l.rootKey, .munlock p] ++ R.evs⟩

structure DelRes where
  tree : BTree
  rc : Int
  out : Option String
  evs : List Ev
deriving DecidableEq

/-- Search-and-delete loop of `bt_delete`, on a non-empty subtree whose
root mutex is already locked; `p` is the key of the locked parent node (if
any).  `useOut` records whether the caller passed a non-null `old_value`
pointer; `out` is what has been stored through it on return (`none` if it
was never written).  `alloc` is the oracle for the single `strdup` of the
successor's key.  On a dead-end the code unlocks only `cur`, then in the
found cases: at most one child is spliced out directly; with two children
the in-order successor's key is duplicated into the found node, the
successor's value goes to the caller (or, with no out pointer, into the
found node), and the successor is spliced out of the right subtree. -/
def bt_delGo (alloc useOut : Bool) (key : String) : BTree → Option String → DelRes
  | .leaf, _ => ⟨.leaf, -1, none, []⟩
  | .node l k v r, p =>
    match strcmp key k with
    | .lt =>
      if l = .leaf then ⟨.node l k v r, -1, none, [.munlock k]⟩
      else
        let R := bt_delGo alloc useOut key l (some k)
        ⟨.node R.tree k v r, R.rc, R.out, [.mlock l.rootKey] ++ unlockOpt p ++ R.evs⟩
    | .gt =>
      if r = .leaf then ⟨.node l k v r, -1, none, [.munlock k]⟩
      else
        let R := bt_delGo alloc useOut key r (some k)
        ⟨.node l k v R.tree, R.rc, R.out, [.mlock r.rootKey] ++ unlockOpt p ++ R.evs⟩
    | .eq =>
      let out0 : Option String := if useOut then some v else none
      if l = .leaf then ⟨r, 0, out0, [.munlock k] ++ unlockOpt p⟩
      else if r = .leaf then ⟨l, 0, out0, [.munlock k] ++ unlockOpt p⟩
      else
        let M := find_min_locked r k
        let pre := [.mlock r.rootKey] ++ M.evs
        let post := [.munlock M.key, .munlock M.par, .munlock k] ++ unlockOpt p
        if alloc then
          ⟨.node l M.key (if useOut then v else M.val) M.rest, 0,
            (if useOut then some M.val else none), pre ++ post⟩
        else
          ⟨.node l k v r, ENOMEM, out0, pre ++ post⟩

/-- `bt_delete` on a (non-null) tree and key. -/
def bt_delete (alloc useOut : Bool) (t : BTree) (key : String) : DelRes :=
  match t with
  | .leaf => ⟨.leaf, -1, none, [.wrlock, .rwunlock]⟩
  | .node l k v r =>
    let R := bt_delGo alloc useOut key (.node l k v r) none
    ⟨R.tree, R.rc, R.out, [.wrlock, .mlock k] ++ R.evs ++ [.rwunlock]⟩

/-! ## `node_free_recursive`, `bt_destroy`, `bt_init` -/

/-- Post-order teardown: frees the left subtree, then the right subtree,
then the node itself; `node_free` invokes the caller's `free_value`
callback on the node's value only if one was supplied (`cb`).  The result
is the sequence of values released through the callback, in release
order. -/
def node_free_recursive (cb : Bool) : BTree → List String
  | .leaf => []
  | .node l _ v r =>
    node_free_recursive cb l ++ node_free_recursive cb r ++ (if cb then [v] else [])

/-- `bt_destroy` on a (non-null) tree: tears every node down post-order
under the exclusive tree lock and clears the root.  Returns the cleared
tree and the values released via the optional callback. -/
def bt_destroy (cb : Bool) (t : BTree) : BTree × List String :=
  (.leaf, node_free_recursive cb t)

/-! ## Null-argument entry points

Every public operation begins with `if (!t || !key) return ...` before any
lock is taken; `none` models a null pointer (an empty string is a valid,
non-null C string and is *not* rejected). -/

/-- `bt_init`: rejects a null tree handle with `EINVAL`, otherwise yields
the empty tree and `0`. -/
def bt_init (t : Option BTree) : Option BTree × Int :=
  match t with
  | none => (none, EINVAL)
  | some _ => (some .leaf, 0)

/-- `bt_lookup` entry point with nullable tree and key. -/
def bt_lookup_c (t : Option BTree) (key : Option String) :
    Option BTree × Option String × List Ev :=
  match t, key with
  | none, _ => (none, none, [])
  | some t0, none => (some t0, none, [])
  | some t0, some k =>
    let R := bt_lookup t0 k
    (some t0, R.1, R.2)

/-- `bt_add` entry point with nullable tree and key. -/
def bt_add_c (alloc : Bool) (t : Option BTree) (key : Option String) (value : String) :
    Option BTree × Int × List Ev :=
  match t, key with
  | none, _ => (none, EINVAL, [])
  | some t0, none => (some t0, EINVAL, [])
  | some t0, some k =>
    let R := bt_add alloc t0 k value
    (some R.tree, R.rc, R.evs)

/-- `bt_delete` entry point with nullable tree and key. -/
def bt_delete_c (alloc useOut : Bool) (t : Option BTree) (key : Option String) :
    Option BTree × Int × Option String × List Ev :=
  match t, key with
  | none, _ => (none, EINVAL, none, [])
  | some t0, none => (some t0, EINVAL, none, [])
  | some t0, some k =>
    let R := bt_delete alloc useOut t0 k
    (some R.tree, R.rc, R.out, R.evs)

/-! ## The demo program (`main` in `demo.c`) -/

/-- The tree built by `main`: inserts (d,delta), (b,bravo), (a,alpha),
(c,charlie), (e,echo) into a freshly initialized tree. -/
def demoTree : BTree :=
  (bt_add true
    (bt_add true
      (bt_add true
        (bt_add true
          (bt_add true .leaf "d" "delta").tree
          "b" "bravo").tree
        "a" "alpha").tree
      "c" "charlie").tree
    "e" "echo").tree

/-! ## Operation sequences (for the invariant claims) -/

inductive Op where
  | add (alloc : Bool) (key value : String) : Op
  | del (alloc useOut : Bool) (key : String) : Op

def applyOp (t : BTree) : Op → BTree
  | .add alloc k v => (bt_add alloc t k v).tree
  | .del alloc useOut k => (bt_delete alloc useOut t k).tree

def runOps (ops : List Op) : BTree := ops.foldl applyOp .leaf

/-- The node-mutex multiset corresponding to an optional locked parent. -/
def pHeld : Option String → Multiset String
  | none => 0
  | some p => {p}

/-! ## Facts about `strcmp` -/

theorem ccmp_self (a : List Char) : ccmp a a = .eq := by
  induction a with
  | nil => rfl
  | cons x xs ih => simp [ccmp, ih]

theorem strcmp_self (a : String) : strcmp a a = .eq := ccmp_self a.data

theorem ccmp_eq_iff (a b : List Char) : ccmp a b = .eq ↔ a = b := by
  induction a generalizing b with
  | nil => cases b <;> simp [ccmp]
  | cons x xs ih =>
    cases b with
    | nil => simp [ccmp]
    | cons y ys =>
      by_cases h1 : x.toNat < y.toNat
      · simp only [ccmp, if_pos h1]
        constructor
        · intro h; cases h
        · intro h
          injection h with hx _
          subst hx
          exact absurd h1 (Nat.lt_irrefl _)
      · by_cases h2 : y.toNat < x.toNat
        · simp only [ccmp, if_neg h1, if_pos h2]
          constructor
          · intro h; cases h
          · intro h
            injection h with hx _
            subst hx
            exact absurd h2 (Nat.lt_irrefl _)
        · have hxy : x = y := by
            have : x.toNat = y.toNat := Nat.le_antisymm (Nat.le_of_not_lt h2) (Nat.le_of_not_lt h1)
            exact Char.eq_of_val_eq (UInt32.toNat.inj this)
          subst hxy
          simp only [ccmp, if_neg h1, if_neg h2, ih]
          constructor
          · intro h; rw [h]
          · intro h; injection h

theorem strcmp_eq_iff (a b : String) : strcmp a b = .eq ↔ a = b := by
  rw [strcmp, ccmp_eq_iff]
  constructor
  · intro h; cases a; cases b; simp_all
  · intro h; rw [h]

theorem ccmp_swap (a b : List Char) : ccmp b a = (ccmp a b).swap := by
  induction a generalizing b with
  | nil => cases b <;> rfl
  | cons x xs ih =>
    cases b with
    | nil => rfl
    | cons y ys =>
      by_cases h1 : x.toNat < y.toNat
      · have h2 : ¬ y.toNat < x.toNat := Nat.lt_asymm h1
        simp [ccmp, h1, h2, Ordering.swap]
      · by_cases h2 : y.toNat < x.toNat
        · simp [ccmp, h1, h2, Ordering.swap]
        · simp [ccmp, h1, h2, ih]

theorem strcmp_gt_iff (a b : String) : strcmp a b = .gt ↔ strcmp b a = .lt := by
  rw [strcmp, strcmp, ccmp_swap a.data b.data]
  cases ccmp a.data b.data <;> simp [Ordering.swap]

theorem ccmp_lt_trans {a b c : List Char} (h1 : ccmp a b = .lt) (h2 : ccmp b c = .lt) :
    ccmp a c = .lt := by
  induction a generalizing b c with
  | nil =>
    cases b with
    | nil => cases h1
    | cons y ys => cases c with
      | nil => cases h2
      | cons z zs => rfl
  | cons x xs ih =>
    cases b with
    | nil => cases h1
    | cons y ys =>
      cases c with
      | nil => cases h2
      | cons z zs =>
        by_cases hxy : x.toNat < y.toNat
        · by_cases hyz : y.toNat < z.toNat
          · have : x.toNat < z.toNat := Nat.lt_trans hxy hyz
            simp [ccmp, this]
          · by_cases hzy : z.toNat < y.toNat
            · simp only [ccmp, if_neg hyz, if_pos hzy] at h2
              cases h2
            · have : y.toNat = z.toNat :=
                Nat.le_antisymm (Nat.le_of_not_lt hzy) (Nat.le_of_not_lt hyz)
              have : x.toNat < z.toNat := this ▸ hxy
              simp [ccmp, this]
        · by_cases hyx : y.toNat < x.toNat
          · simp only [ccmp, if_neg hxy, if_pos hyx] at h1
            cases h1
          · have hxyeq : x.toNat = y.toNat :=
              Nat.le_antisymm (Nat.le_of_not_lt hyx) (Nat.le_of_not_lt hxy)
            by_cases hyz : y.toNat < z.toNat
            · have : x.toNat < z.toNat := hxyeq ▸ hyz
              simp [ccmp, this]
            · by_cases hzy : z.toNat < y.toNat
              · simp only [ccmp, if_neg hyz, if_pos hzy] at h2
                cases h2
              · have hyzeq : y.toNat = z.toNat :=
                  Nat.le_antisymm (Nat.le_of_not_lt hzy) (Nat.le_of_not_lt hyz)
                have hxz : ¬ x.toNat < z.toNat := by omega
                have hzx : ¬ z.toNat < x.toNat := by omega
                simp only [ccmp, if_neg hxy, if_neg hyx] at h1
                simp only [ccmp, if_neg hyz, if_neg hzy] at h2
                simp only [ccmp, if_neg hxz, if_neg hzx]
                exact ih h1 h2

theorem strcmp_lt_trans {a b c : String} (h1 : strcmp a b = .lt) (h2 : strcmp b c = .lt) :
    strcmp a c = .lt := ccmp_lt_trans h1 h2

theorem strcmp_lt_irrefl (a : String) : strcmp a a ≠ .lt := by
  rw [strcmp_self]; intro h; cases h

theorem strcmp_lt_ne {a b : String} (h : strcmp a b = .lt) : a ≠ b := by
  intro he; subst he; exact strcmp_lt_irrefl a h

theorem strcmp_ne_of_ne {a b : String} (h : a ≠ b) : strcmp a b ≠ .eq := by
  intro he; exact h ((strcmp_eq_iff a b).mp he)

theorem strcmp_cases (a b : String) :
    strcmp a b = .lt ∨ (strcmp a b = .eq ∧ a = b) ∨ strcmp a b = .gt := by
  rcases h : strcmp a b with _ | _ | _
  · left; rfl
  · right; left; exact ⟨rfl, (strcmp_eq_iff a b).mp h⟩
  · right; right; rfl


/-! ## Basic facts about the invariant and search helpers -/

open BTree

theorem isBST_node {l r : BTree} {k v : String} :
    isBST (.node l k v r) = true ↔
      (∀ x ∈ keys l, strcmp x k = .lt) ∧ (∀ x ∈ keys r, strcmp k x = .lt) ∧
      isBST l = true ∧ isBST r = true := by
  simp [isBST, List.all_eq_true, Bool.and_eq_true, decide_eq_true_eq, and_assoc]

theorem pairwise_of_isBST :
    ∀ t : BTree, isBST t = true →
      (keys t).Pairwise (fun a b => strcmp a b = .lt) := by
  intro t
  induction t with
  | leaf => intro _; simp [keys]
  | node l k v r ihl ihr =>
    intro h
    rcases isBST_node.mp h with ⟨hlk, hkr, hl, hr⟩
    have pl := ihl hl
    have pr := ihr hr
    rw [keys, List.append_assoc]
    rw [List.pairwise_append]
    refine ⟨pl, ?_, ?_⟩
    · rw [List.singleton_append, List.pairwise_cons]
      exact ⟨hkr, pr⟩
    · intro a ha b hb
      rw [List.singleton_append, List.mem_cons] at hb
      rcases hb with hb | hb
      · subst hb; exact hlk a ha
      · exact strcmp_lt_trans (hlk a ha) (hkr b hb)

theorem nodup_keys_of_isBST (t : BTree) (h : isBST t = true) : (keys t).Nodup := by
  have := pairwise_of_isBST t h
  exact this.imp fun hab => strcmp_lt_ne hab

theorem subtreeAt_mem :
    ∀ (t : BTree) (key : String) (s : BTree),
      subtreeAt t key = some s → key ∈ keys t := by
  intro t
  induction t with
  | leaf => intro key s h; cases h
  | node l k v r ihl ihr =>
    intro key s h
    rw [subtreeAt] at h
    rcases hc : strcmp key k with _ | _ | _ <;> rw [hc] at h
    · simp [keys]; exact Or.inl (ihl key s h)
    · have : key = k := (strcmp_eq_iff key k).mp hc
      subst this; simp [keys]
    · simp [keys]; exact Or.inr (Or.inr (ihr key s h))

theorem subtreeAt_keys_subset :
    ∀ (t : BTree) (key : String) (s : BTree),
      subtreeAt t key = some s → keys s ⊆ keys t := by
  intro t
  induction t with
  | leaf => intro key s h; cases h
  | node l k v r ihl ihr =>
    intro key s h
    rw [subtreeAt] at h
    rcases hc : strcmp key k with _ | _ | _ <;> rw [hc] at h
    · intro x hx
      simp [keys]
      exact Or.inl (ihl key s h hx)
    · cases h; intro x hx; exact hx
    · intro x hx
      simp [keys]
      exact Or.inr (Or.inr (ihr key s h hx))

theorem subtreeAt_root_key :
    ∀ (t : BTree) (key : String) (l r : BTree) (k v : String),
      subtreeAt t key = some (.node l k v r) → k = key := by
  intro t
  induction t with
  | leaf => intro key l r k v h; cases h
  | node L K V R ihl ihr =>
    intro key l r k v h
    rw [subtreeAt] at h
    rcases hc : strcmp key K with _ | _ | _ <;> rw [hc] at h
    · exact ihl key l r k v h
    · have : key = K := (strcmp_eq_iff key K).mp hc
      cases h; exact this.symm
    · exact ihr key l r k v h

/-- Specification of `find_min_locked` (fused with the splice): it names
the in-order minimum of the subtree it walks, the spliced subtree drops
exactly that first in-order key, and the splice preserves the invariant. -/
theorem find_min_spec :
    ∀ (t : BTree), t ≠ .leaf → ∀ (p : String),
      minKV t = some ((find_min_locked t p).key, (find_min_locked t p).val) ∧
      keys t = (find_min_locked t p).key :: keys (find_min_locked t p).rest ∧
      (isBST t = true → isBST (find_min_locked t p).rest = true) := by
  intro t
  induction t with
  | leaf => intro h; exact absurd rfl h
  | node l k v r ihl ihr =>
    intro _ p
    by_cases hl : l = .leaf
    · subst hl
      refine ⟨by simp [minKV, find_min_locked], by simp [keys, find_min_locked], ?_⟩
      intro h
      simp only [find_min_locked, if_pos rfl]
      exact (isBST_node.mp h).2.2.2
    · rcases ihl hl k with ⟨hmin, hkeys, hbst⟩
      refine ⟨?_, ?_, ?_⟩
      · simp [minKV, find_min_locked, hl, hmin]
      · simp only [keys, find_min_locked, if_neg hl]
        rw [hkeys]
        simp [keys]
      · intro h
        rcases isBST_node.mp h with ⟨hlk, hkr, hbl, hbr⟩
        simp only [find_min_locked, if_neg hl]
        refine isBST_node.mpr ⟨?_, hkr, hbst hbl, hbr⟩
        intro x hx
        apply hlk
        rw [hkeys]
        exact List.mem_cons_of_mem _ hx

/-! ## `bt_add`: key bounds, invariant preservation, replace/insert results -/

theorem addGo_keys_subset (alloc : Bool) (key value : String) :
    ∀ (t : BTree) (p : Option String) (x : String),
      x ∈ keys (bt_addGo alloc key value t p).tree → x ∈ keys t ∨ x = key := by
  intro t
  induction t with
  | leaf =>
    intro p x hx
    simp [bt_addGo, keys] at hx
  | node l k v r ihl ihr =>
    intro p x hx
    rcases hc : strcmp key k with _ | _ | _
    · by_cases hl : l = .leaf
      · by_cases ha : alloc <;>
          simp [bt_addGo, hc, hl, ha, keys] at hx ⊢ <;> tauto
      · simp only [bt_addGo, hc, if_neg hl] at hx
        simp [keys] at hx ⊢
        rcases hx with hx | hx | hx
        · rcases ihl (some k) x hx with h | h
          · exact Or.inl (Or.inl h)
          · exact Or.inr h
        · tauto
        · tauto
    · simp only [bt_addGo, hc] at hx
      simp [keys] at hx ⊢
      tauto
    · by_cases hr : r = .leaf
      · by_cases ha : alloc <;>
          simp [bt_addGo, hc, hr, ha, keys] at hx ⊢ <;> tauto
      · simp only [bt_addGo, hc, if_neg hr] at hx
        simp [keys] at hx ⊢
        rcases hx with hx | hx | hx
        · tauto
        · tauto
        · rcases ihr (some k) x hx with h | h
          · exact Or.inl (Or.inr (Or.inr h))
          · exact Or.inr h

theorem isBST_addGo (alloc : Bool) (key value : String) :
    ∀ (t : BTree) (p : Option String),
      isBST t = true → isBST (bt_addGo alloc key value t p).tree = true := by
  intro t
  induction t with
  | leaf => intro p _; simp [bt_addGo, isBST]
  | node l k v r ihl ihr =>
    intro p h
    rcases isBST_node.mp h with ⟨hlk, hkr, hl, hr⟩
    rcases hc : strcmp key k with _ | _ | _
    · by_cases hle : l = .leaf
      · subst hle
        by_cases ha : alloc <;> simp only [bt_addGo, hc, ha, if_true, if_false, if_pos rfl]
        · refine isBST_node.mpr ⟨?_, hkr, ?_, hr⟩
          · intro x hx
            simp [keys] at hx
            subst hx; exact hc
          · simp [isBST, keys]
        · exact h
      · simp only [bt_addGo, hc, if_neg hle]
        refine isBST_node.mpr ⟨?_, hkr, ihl (some k) hl, hr⟩
        intro x hx
        rcases addGo_keys_subset alloc key value l (some k) x hx with hm | hm
        · exact hlk x hm
        · subst hm; exact hc
    · simp only [bt_addGo, hc]
      exact isBST_node.mpr ⟨hlk, hkr, hl, hr⟩
    · by_cases hre : r = .leaf
      · subst hre
        by_cases ha : alloc <;> simp only [bt_addGo, hc, ha, if_true, if_false, if_pos rfl]
        · refine isBST_node.mpr ⟨hlk, ?_, hl, ?_⟩
          · intro x hx
            simp [keys] at hx
            subst hx
            exact (strcmp_gt_iff _ _).mp hc
          · simp [isBST, keys]
        · exact h
      · simp only [bt_addGo, hc, if_neg hre]
        refine isBST_node.mpr ⟨hlk, ?_, hl, ihr (some k) hr⟩
        intro x hx
        rcases addGo_keys_subset alloc key value r (some k) x hx with hm | hm
        · exact hkr x hm
        · subst hm; exact (strcmp_gt_iff _ _).mp hc

theorem addGo_mem_self (key value : String) :
    ∀ (t : BTree) (p : Option String), t ≠ .leaf →
      key ∈ keys (bt_addGo true key value t p).tree := by
  intro t
  induction t with
  | leaf => intro p h; exact absurd rfl h
  | node l k v r ihl ihr =>
    intro p _
    rcases hc : strcmp key k with _ | _ | _
    · by_cases hle : l = .leaf
      · simp [bt_addGo, hc, hle, keys]
      · simp only [bt_addGo, hc, if_neg hle]
        simp [keys]
        exact Or.inl (ihl (some k) hle)
    · have : key = k := (strcmp_eq_iff key k).mp hc
      subst this
      simp [bt_addGo, hc, keys]
    · by_cases hre : r = .leaf
      · simp [bt_addGo, hc, hre, keys]
      · simp only [bt_addGo, hc, if_neg hre]
        simp [keys]
        exact Or.inr (Or.inr (ihr (some k) hre))

theorem addGo_new_rc (value : String) {key : String} :
    ∀ (t : BTree) (p : Option String), key ∉ keys t → t ≠ .leaf →
      (bt_addGo true key value t p).rc = 0 := by
  intro t
  induction t with
  | leaf => intro p _ h; exact absurd rfl h
  | node l k v r ihl ihr =>
    intro p hmem _
    have hne : key ≠ k := by
      intro he; subst he; exact hmem (by simp [keys])
    rcases hc : strcmp key k with _ | _ | _
    · by_cases hle : l = .leaf
      · simp [bt_addGo, hc, hle]
      · simp only [bt_addGo, hc, if_neg hle]
        exact ihl (some k) (fun hx => hmem (by simp [keys]; exact Or.inl hx)) hle
    · exact absurd ((strcmp_eq_iff key k).mp hc) hne
    · by_cases hre : r = .leaf
      · simp [bt_addGo, hc, hre]
      · simp only [bt_addGo, hc, if_neg hre]
        exact ihr (some k) (fun hx => hmem (by simp [keys]; exact Or.inr (Or.inr hx))) hre

theorem addGo_replace (alloc : Bool) (value : String) {key : String} :
    ∀ (t : BTree) (p : Option String), isBST t = true → key ∈ keys t →
      (bt_addGo alloc key value t p).rc = 1 ∧
      keyShapeList (bt_addGo alloc key value t p).tree = keyShapeList t ∧
      keys (bt_addGo alloc key value t p).tree = keys t ∧
      (bt_lookupGo key (bt_addGo alloc key value t p).tree).1 = some value := by
  intro t
  induction t with
  | leaf => intro p _ hmem; simp [keys] at hmem
  | node l k v r ihl ihr =>
    intro p h hmem
    rcases isBST_node.mp h with ⟨hlk, hkr, hl, hr⟩
    simp only [keys, List.append_assoc, List.mem_append, List.mem_singleton,
      List.mem_cons, List.not_mem_nil, or_false] at hmem
    rcases hc : strcmp key k with _ | _ | _
    · -- key < k: the key must be in the left subtree
      have hne : key ≠ k := strcmp_lt_ne hc
      have hmeml : key ∈ keys l := by
        rcases hmem with h1 | h1 | h1
        · exact h1
        · exact absurd h1 hne
        · exact absurd (strcmp_lt_trans hc (hkr key h1)) (strcmp_lt_irrefl key)
      have hle : l ≠ .leaf := by
        intro he; rw [he] at hmeml; simp [keys] at hmeml
      rcases ihl (some k) hl hmeml with ⟨hrc, hshape, hkeys, hlook⟩
      refine ⟨by simp only [bt_addGo, hc, if_neg hle]; exact hrc, ?_, ?_, ?_⟩
      · simp only [bt_addGo, hc, if_neg hle, keyShapeList]
        rw [hshape]
      · simp only [bt_addGo, hc, if_neg hle, keys]
        rw [hkeys]
      · simp only [bt_addGo, hc, if_neg hle, bt_lookupGo]
        exact hlook
    · -- key matches: value replaced in place
      refine ⟨by simp [bt_addGo, hc], by simp [bt_addGo, hc, keyShapeList],
        by simp [bt_addGo, hc, keys], ?_⟩
      simp [bt_addGo, hc, bt_lookupGo]
    · -- key > k: the key must be in the right subtree
      have hne : key ≠ k := by
        intro he; subst he; exact strcmp_lt_irrefl key ((strcmp_gt_iff key key).mp hc)
      have hmemr : key ∈ keys r := by
        rcases hmem with h1 | h1 | h1
        · exact absurd (strcmp_lt_trans (hlk key h1) ((strcmp_gt_iff key k).mp hc))
            (strcmp_lt_irrefl key)
        · exact absurd h1 hne
        · exact h1
      have hre : r ≠ .leaf := by
        intro he; rw [he] at hmemr; simp [keys] at hmemr
      rcases ihr (some k) hr hmemr with ⟨hrc, hshape, hkeys, hlook⟩
      refine ⟨by simp only [bt_addGo, hc, if_neg hre]; exact hrc, ?_, ?_, ?_⟩
      · simp only [bt_addGo, hc, if_neg hre, keyShapeList]
        rw [hshape]
      · simp only [bt_addGo, hc, if_neg hre, keys]
        rw [hkeys]
      · simp only [bt_addGo, hc, if_neg hre, bt_lookupGo]
        exact hlook

theorem addGo_enomem_tree (alloc : Bool) (key value : String) :
    ∀ (t : BTree) (p : Option String),
      (bt_addGo alloc key value t p).rc = ENOMEM →
      (bt_addGo alloc key value t p).tree = t := by
  intro t
  induction t with
  | leaf => intro p _; rfl
  | node l k v r ihl ihr =>
    intro p h
    rcases hc : strcmp key k with _ | _ | _
    · by_cases hle : l = .leaf
      · by_cases ha : alloc
        · simp [bt_addGo, hc, hle, ha, ENOMEM] at h
        · simp [bt_addGo, hc, hle, ha]
      · simp only [bt_addGo, hc, if_neg hle] at h ⊢
        rw [ihl (some k) h]
    · simp [bt_addGo, hc, ENOMEM] at h
    · by_cases hre : r = .leaf
      · by_cases ha : alloc
        · simp [bt_addGo, hc, hre, ha, ENOMEM] at h
        · simp [bt_addGo, hc, hre, ha]
      · simp only [bt_addGo, hc, if_neg hre] at h ⊢
        rw [ihr (some k) h]

/-! ## `bt_delete`: key bounds, invariant preservation, the two-children case -/

theorem minKV_mem :
    ∀ (t : BTree) (mk mv : String), minKV t = some (mk, mv) → mk ∈ keys t := by
  intro t
  induction t with
  | leaf => intro mk mv h; cases h
  | node l k v r ihl ihr =>
    intro mk mv h
    by_cases hl : l = .leaf
    · rw [minKV, if_pos hl] at h
      injection h with h
      injection h with h1 h2
      subst h1
      simp [keys]
    · rw [minKV, if_neg hl] at h
      have := ihl mk mv h
      simp [keys]
      exact Or.inl this

theorem delGo_keys_subset (alloc useOut : Bool) (key : String) :
    ∀ (t : BTree) (p : Option String) (x : String),
      x ∈ keys (bt_delGo alloc useOut key t p).tree → x ∈ keys t := by
  intro t
  induction t with
  | leaf => intro p x hx; simp [bt_delGo, keys] at hx
  | node l k v r ihl ihr =>
    intro p x hx
    rcases hc : strcmp key k with _ | _ | _
    · by_cases hle : l = .leaf
      · simpa [bt_delGo, hc, hle, keys] using hx
      · simp only [bt_delGo, hc, if_neg hle] at hx
        simp [keys] at hx ⊢
        rcases hx with hx | hx | hx
        · exact Or.inl (ihl (some k) x hx)
        · tauto
        · tauto
    · by_cases hle : l = .leaf
      · simp only [bt_delGo, hc, if_pos hle] at hx
        simp [keys]
        tauto
      · by_cases hre : r = .leaf
        · simp only [bt_delGo, hc, if_neg hle, if_pos hre] at hx
          simp [keys]
          tauto
        · by_cases ha : alloc
          · simp only [bt_delGo, hc, if_neg hle, if_neg hre, ha, if_true] at hx
            simp [keys] at hx ⊢
            rcases find_min_spec r hre k with ⟨_, hkeys, _⟩
            rcases hx with hx | hx | hx
            · tauto
            · subst hx
              exact Or.inr (Or.inr (by rw [hkeys]; exact List.mem_cons_self _ _))
            · exact Or.inr (Or.inr (by rw [hkeys]; exact List.mem_cons_of_mem _ hx))
          · simpa [bt_delGo, hc, if_neg hle, if_neg hre, ha, keys] using hx
    · by_cases hre : r = .leaf
      · simpa [bt_delGo, hc, hre, keys] using hx
      · simp only [bt_delGo, hc, if_neg hre] at hx
        simp [keys] at hx ⊢
        rcases hx with hx | hx | hx
        · tauto
        · tauto
        · exact Or.inr (Or.inr (ihr (some k) x hx))

theorem isBST_delGo (alloc useOut : Bool) (key : String) :
    ∀ (t : BTree) (p : Option String),
      isBST t = true → isBST (bt_delGo alloc useOut key t p).tree = true := by
  intro t
  induction t with
  | leaf => intro p h; simpa [bt_delGo] using h
  | node l k v r ihl ihr =>
    intro p h
    rcases isBST_node.mp h with ⟨hlk, hkr, hl, hr⟩
    rcases hc : strcmp key k with _ | _ | _
    · by_cases hle : l = .leaf
      · simpa [bt_delGo, hc, hle] using h
      · simp only [bt_delGo, hc, if_neg hle]
        refine isBST_node.mpr ⟨?_, hkr, ihl (some k) hl, hr⟩
        intro x hx
        exact hlk x (delGo_keys_subset alloc useOut key l (some k) x hx)
    · by_cases hle : l = .leaf
      · simp only [bt_delGo, hc, if_pos hle]
        exact hr
      · by_cases hre : r = .leaf
        · simp only [bt_delGo, hc, if_neg hle, if_pos hre]
          exact hl
        · by_cases ha : alloc
          · simp only [bt_delGo, hc, if_neg hle, if_neg hre, ha, if_true]
            rcases find_min_spec r hre k with ⟨_, hkeys, hbrest⟩
            have hmkr : (find_min_locked r k).key ∈ keys r := by
              rw [hkeys]; exact List.mem_cons_self _ _
            refine isBST_node.mpr ⟨?_, ?_, hl, hbrest hr⟩
            · intro x hx
              exact strcmp_lt_trans (hlk x hx) (hkr _ hmkr)
            · intro x hx
              have hp := pairwise_of_isBST r hr
              rw [hkeys] at hp
              exact (List.pairwise_cons.mp hp).1 x hx
          · simpa [bt_delGo, hc, if_neg hle, if_neg hre, ha] using h
    · by_cases hre : r = .leaf
      · simpa [bt_delGo, hc, hre] using h
      · simp only [bt_delGo, hc, if_neg hre]
        refine isBST_node.mpr ⟨hlk, ?_, hl, ihr (some k) hr⟩
        intro x hx
        exact hkr x (delGo_keys_subset alloc useOut key r (some k) x hx)

theorem delGo_enomem_tree (alloc useOut : Bool) (key : String) :
    ∀ (t : BTree) (p : Option String),
      (bt_delGo alloc useOut key t p).rc = ENOMEM →
      (bt_delGo alloc useOut key t p).tree = t := by
  intro t
  induction t with
  | leaf => intro p _; rfl
  | node l k v r ihl ihr =>
    intro p h
    rcases hc : strcmp key k with _ | _ | _
    · by_cases hle : l = .leaf
      · simp [bt_delGo, hc, hle]
      · simp only [bt_delGo, hc, if_neg hle] at h ⊢
        rw [ihl (some k) h]
    · by_cases hle : l = .leaf
      · simp [bt_delGo, hc, hle, ENOMEM] at h
      · by_cases hre : r = .leaf
        · simp [bt_delGo, hc, hle, hre, ENOMEM] at h
        · by_cases ha : alloc
          · simp [bt_delGo, hc, hle, hre, ha, ENOMEM] at h
          · simp [bt_delGo, hc, hle, hre, ha]
    · by_cases hre : r = .leaf
      · simp [bt_delGo, hc, hre]
      · simp only [bt_delGo, hc, if_neg hre] at h ⊢
        rw [ihr (some k) h]

/-- Looking up a key in a BST returns the value stored at the matched
node. -/
theorem lookup_subtreeAt :
    ∀ (u : BTree) (x : String) (a b : BTree) (w : String),
      isBST u = true → subtreeAt u x = some (.node a x w b) →
      (bt_lookupGo x u).1 = some w := by
  intro u
  induction u with
  | leaf => intro x a b w _ hs; cases hs
  | node L K V R ihl ihr =>
    intro x a b w hb hs
    rcases isBST_node.mp hb with ⟨_, _, hbL, hbR⟩
    rcases hc : strcmp x K with _ | _ | _ <;> rw [subtreeAt, hc] at hs
    · simp only [bt_lookupGo, hc]
      exact ihl x a b w hbL hs
    · injection hs with hs
      injection hs with _ _ hV _
      simp only [bt_lookupGo, hc, hV]
    · simp only [bt_lookupGo, hc]
      exact ihr x a b w hbR hs

/-- Looking up a key inside the subtree matched by `subtreeAt` gives the
same result as looking it up from the root: the BST bounds steer the
descent down the same path. -/
theorem lookup_in_subtree :
    ∀ (u : BTree) (key : String) (s : BTree),
      isBST u = true → subtreeAt u key = some s →
      ∀ x, x ∈ keys s → (bt_lookupGo x u).1 = (bt_lookupGo x s).1 := by
  intro u
  induction u with
  | leaf => intro key s _ hs; cases hs
  | node L K V R ihl ihr =>
    intro key s hb hs x hx
    rcases isBST_node.mp hb with ⟨hLK, hKR, hbL, hbR⟩
    rcases hc : strcmp key K with _ | _ | _ <;> rw [subtreeAt, hc] at hs
    · have hxL : x ∈ keys L := subtreeAt_keys_subset L key s hs hx
      simp only [bt_lookupGo, hLK x hxL]
      exact ihl key s hbL hs x hx
    · cases hs; rfl
    · have hxR : x ∈ keys R := subtreeAt_keys_subset R key s hs hx
      have : strcmp x K = .gt := (strcmp_gt_iff x K).mpr (hKR x hxR)
      simp only [bt_lookupGo, this]
      exact ihr key s hbR hs x hx

/-- In a BST, looking up the minimum key returns the minimum's value. -/
theorem lookup_minKV :
    ∀ (t : BTree) (mk mv : String),
      isBST t = true → minKV t = some (mk, mv) →
      (bt_lookupGo mk t).1 = some mv := by
  intro t
  induction t with
  | leaf => intro mk mv _ h; cases h
  | node l k v r ihl ihr =>
    intro mk mv hb h
    rcases isBST_node.mp hb with ⟨hlk, _, hbl, _⟩
    by_cases hl : l = .leaf
    · rw [minKV, if_pos hl] at h
      injection h with h
      injection h with h1 h2
      subst h1; subst h2
      simp [bt_lookupGo, strcmp_self]
    · rw [minKV, if_neg hl] at h
      have hmem : mk ∈ keys l := minKV_mem l mk mv h
      simp only [bt_lookupGo, hlk mk hmem]
      exact ihl mk mv hbl h

/-- Core behaviour of `bt_delete` on a key whose node has two children,
with the `strdup` of the successor's key succeeding: the matched node
takes the successor's key (keeping its own value when an out pointer is
present, taking the successor's value otherwise), the successor's node is
the one spliced out of the right subtree, the successor's value is what
reaches the out pointer, the in-order key sequence just loses the deleted
key, and the invariant is preserved. -/
theorem delGo_two_shape (useOut : Bool) (key : String) (l r : BTree) (v mk mv : String)
    (hl : l ≠ .leaf) (hr : r ≠ .leaf) (hmin : minKV r = some (mk, mv)) :
    ∀ (t : BTree) (p : Option String),
      isBST t = true →
      subtreeAt t key = some (.node l key v r) →
      (bt_delGo true useOut key t p).rc = 0 ∧
      (bt_delGo true useOut key t p).out = (if useOut then some mv else none) ∧
      (∃ r2, subtreeAt (bt_delGo true useOut key t p).tree mk =
               some (.node l mk (if useOut then v else mv) r2) ∧
             keys r = mk :: keys r2) ∧
      keys (bt_delGo true useOut key t p).tree = (keys t).erase key ∧
      isBST (bt_delGo true useOut key t p).tree = true := by
  intro t
  induction t with
  | leaf => intro p _ hs; cases hs
  | node L K V R ihl ihr =>
    intro p hb hs
    rcases isBST_node.mp hb with ⟨hLK, hKR, hbL, hbR⟩
    have hmk_sub : mk ∈ keys (BTree.node l key v r) := by
      have : mk ∈ keys r := minKV_mem r mk mv hmin
      simp [keys]
      tauto
    rcases hc : strcmp key K with _ | _ | _ <;> rw [subtreeAt, hc] at hs
    · -- descend left
      have hLne : L ≠ .leaf := by
        intro he; rw [he] at hs; cases hs
      have hkeyL : key ∈ keys L := subtreeAt_mem L key _ hs
      have hmkL : mk ∈ keys L := subtreeAt_keys_subset L key _ hs hmk_sub
      obtain ⟨ihrc, ihout, ⟨r2, ihsub, ihkr⟩, ihkeys, ihbst⟩ := ihl (some K) hbL hs
      simp only [bt_delGo, hc, if_neg hLne]
      refine ⟨ihrc, ihout, ⟨r2, ?_, ihkr⟩, ?_, ?_⟩
      · rw [subtreeAt, hLK mk hmkL]
        exact ihsub
      · have herase : (keys (BTree.node L K V R)).erase key
            = (keys L).erase key ++ ([K] ++ keys R) := by
          rw [keys, List.append_assoc, List.erase_append_left _ hkeyL]
        show keys (bt_delGo true useOut key L (some K)).tree ++ [K] ++ keys R = _
        rw [ihkeys, herase, List.append_assoc]
      · refine isBST_node.mpr ⟨?_, hKR, ihbst, hbR⟩
        intro x hx
        exact hLK x (delGo_keys_subset true useOut key L (some K) x hx)
    · -- found the node: the two-children case applies
      injection hs with hs
      injection hs with hL hK hV hR
      subst hL; subst hV; subst hR; subst hK
      simp only [bt_delGo, hc, if_neg hl, if_neg hr, if_true]
      rcases find_min_spec R hr K with ⟨hmspec, hkeys, hbrest⟩
      rw [hmin] at hmspec
      injection hmspec with hmspec
      injection hmspec with hmk hmv
      have hKnotL : K ∉ keys L := by
        intro hmem
        exact strcmp_lt_irrefl K (hLK K hmem)
      refine ⟨by trivial, by rw [hmv], ⟨(find_min_locked R K).rest, ?_, by rw [← hmk] at hkeys; exact hkeys⟩, ?_, ?_⟩
      · simp only [← hmk, ← hmv, subtreeAt, strcmp_self]
      · have herase : (keys (BTree.node L K V R)).erase K = keys L ++ keys R := by
          rw [keys, List.append_assoc, List.erase_append_right _ hKnotL,
            List.singleton_append, List.erase_cons_head]
        show keys L ++ [(find_min_locked R K).key] ++ keys (find_min_locked R K).rest = _
        rw [herase, hkeys, List.append_assoc, List.singleton_append]
      · have hp := pairwise_of_isBST R hbR
        rw [hkeys] at hp
        have hmkR : (find_min_locked R K).key ∈ keys R := by
          rw [hkeys]; exact List.mem_cons_self _ _
        refine isBST_node.mpr ⟨?_, ?_, hbL, hbrest hbR⟩
        · intro x hx
          exact strcmp_lt_trans (hLK x hx) (hKR _ hmkR)
        · intro x hx
          exact (List.pairwise_cons.mp hp).1 x hx
    · -- descend right
      have hRne : R ≠ .leaf := by
        intro he; rw [he] at hs; cases hs
      have hkeyR : key ∈ keys R := subtreeAt_mem R key _ hs
      have hmkR : mk ∈ keys R := subtreeAt_keys_subset R key _ hs hmk_sub
      have hKeyne : key ≠ K := by
        intro he; subst he
        rw [strcmp_self] at hc; cases hc
      have hKnotL : key ∉ keys L := by
        intro hmem
        exact strcmp_lt_irrefl key
          (strcmp_lt_trans (hLK key hmem) ((strcmp_gt_iff key K).mp hc))
      obtain ⟨ihrc, ihout, ⟨r2, ihsub, ihkr⟩, ihkeys, ihbst⟩ := ihr (some K) hbR hs
      simp only [bt_delGo, hc, if_neg hRne]
      refine ⟨ihrc, ihout, ⟨r2, ?_, ihkr⟩, ?_, ?_⟩
      · rw [subtreeAt, (strcmp_gt_iff mk K).mpr (hKR mk hmkR)]
        exact ihsub
      · have hne2 : ¬(K == key) := by
          intro hbeq
          have : K = key := by simpa using hbeq
          exact hKeyne this.symm
        have herase : (keys (BTree.node L K V R)).erase key
            = keys L ++ (K :: (keys R).erase key) := by
          rw [keys, List.append_assoc, List.erase_append_right _ hKnotL,
            List.singleton_append, List.erase_cons_tail hne2]
        show keys L ++ [K] ++ keys (bt_delGo true useOut key R (some K)).tree = _
        rw [ihkeys, herase, List.append_assoc, List.singleton_append]
      · refine isBST_node.mpr ⟨hLK, ?_, hbL, ihbst⟩
        intro x hx
        exact hKR x (delGo_keys_subset true useOut key R (some K) x hx)

/-- `bt_delete` on a two-children key with a failing `strdup`: the status
is `ENOMEM` and the tree is untouched, but the found node's value has
already been written through a supplied out pointer. -/
theorem delGo_two_enomem (useOut : Bool) (key : String) (l r : BTree) (v : String)
    (hl : l ≠ .leaf) (hr : r ≠ .leaf) :
    ∀ (t : BTree) (p : Option String),
      subtreeAt t key = some (.node l key v r) →
      (bt_delGo false useOut key t p).rc = ENOMEM ∧
      (bt_delGo false useOut key t p).out = (if useOut then some v else none) ∧
      (bt_delGo false useOut key t p).tree = t := by
  intro t
  induction t with
  | leaf => intro p hs; cases hs
  | node L K V R ihl ihr =>
    intro p hs
    rcases hc : strcmp key K with _ | _ | _ <;> rw [subtreeAt, hc] at hs
    · have hLne : L ≠ .leaf := by
        intro he; rw [he] at hs; cases hs
      obtain ⟨ihrc, ihout, ihtree⟩ := ihl (some K) hs
      simp only [bt_delGo, hc, if_neg hLne]
      exact ⟨ihrc, ihout, by rw [ihtree]⟩
    · injection hs with hs
      injection hs with hL hK hV hR
      subst hL; subst hV; subst hR
      have hKey : K = key := (strcmp_eq_iff key K).mp hc |>.symm
      subst hKey
      simp only [bt_delGo, hc, if_neg hl, if_neg hr, if_false, Bool.false_eq_true]
      exact ⟨by trivial, by trivial, by trivial⟩
    · have hRne : R ≠ .leaf := by
        intro he; rw [he] at hs; cases hs
      obtain ⟨ihrc, ihout, ihtree⟩ := ihr (some K) hs
      simp only [bt_delGo, hc, if_neg hRne]
      exact ⟨ihrc, ihout, by rw [ihtree]⟩

/-! ## Lock-trace accounting -/

theorem heldAfter_append (evs1 : List Ev) :
    ∀ (evs2 : List Ev) (h : Multiset String),
      heldAfter h (evs1 ++ evs2) = heldAfter (heldAfter h evs1) evs2 := by
  induction evs1 with
  | nil => intro evs2 h; rfl
  | cons e evs ih =>
    intro evs2 h
    cases e <;> simp [heldAfter, ih]

theorem heldAfter_unlockOpt (p : Option String) :
    heldAfter (pHeld p) (unlockOpt p) = 0 := by
  cases p with
  | none => rfl
  | some q => simp [pHeld, unlockOpt, heldAfter]

theorem erase_cons_one (a c : String) (H : Multiset String) :
    (a ::ₘ c ::ₘ H).erase c = a ::ₘ H := by
  rw [Multiset.cons_swap a c, Multiset.erase_cons_head]

theorem erase_cons_cons (a b c : String) (H : Multiset String) :
    (a ::ₘ b ::ₘ c ::ₘ H).erase c = a ::ₘ b ::ₘ H := by
  rw [Multiset.cons_swap b c, Multiset.cons_swap a c, Multiset.erase_cons_head]

theorem heldAfter_unlockOpt_cons (k : String) (p : Option String) :
    heldAfter ((pHeld p).erase k) (unlockOpt p) = 0 := by
  cases p with
  | none => rfl
  | some q =>
    by_cases hk : k = q
    · subst hk
      simp [pHeld, unlockOpt, heldAfter]
    · have : ({q} : Multiset String).erase k = {q} := by
        apply Multiset.erase_of_not_mem
        simp only [Multiset.mem_singleton]
        exact hk
      simp [pHeld, unlockOpt, heldAfter, this]

/-- Every node mutex `bt_add` locks during its descent is unlocked again by
the time the loop exits: starting from the root and parent mutexes held,
the trace of `bt_addGo` drains the held set completely, on every path
(successful insert, replace, and failed allocation alike). -/
theorem addGo_held (alloc : Bool) (key value : String) :
    ∀ (t : BTree) (p : Option String), t ≠ .leaf →
      heldAfter (t.rootKey ::ₘ pHeld p) (bt_addGo alloc key value t p).evs = 0 := by
  intro t
  induction t with
  | leaf => intro p h; exact absurd rfl h
  | node l k v r ihl ihr =>
    intro p _
    rcases hc : strcmp key k with _ | _ | _
    · by_cases hle : l = .leaf
      · by_cases ha : alloc <;>
          simp [bt_addGo, hc, hle, ha, rootKey, heldAfter, heldAfter_append,
            Multiset.erase_cons_head, heldAfter_unlockOpt]
      · simp only [bt_addGo, hc, if_neg hle, rootKey]
        show heldAfter (k ::ₘ pHeld p)
          ([Ev.mlock l.rootKey] ++ unlockOpt p ++ (bt_addGo alloc key value l (some k)).evs) = 0
        rw [heldAfter_append, heldAfter_append]
        have h1 : heldAfter (k ::ₘ pHeld p) [Ev.mlock l.rootKey]
            = l.rootKey ::ₘ k ::ₘ pHeld p := rfl
        rw [h1]
        have h2 : heldAfter (l.rootKey ::ₘ k ::ₘ pHeld p) (unlockOpt p)
            = l.rootKey ::ₘ pHeld (some k) := by
          cases p with
          | none => rfl
          | some q =>
            show (l.rootKey ::ₘ k ::ₘ q ::ₘ 0).erase q = _
            rw [erase_cons_cons]
            rfl
        rw [h2]
        exact ihl (some k) hle
    · simp only [bt_addGo, hc, rootKey]
      show heldAfter (k ::ₘ pHeld p) ([Ev.munlock k] ++ unlockOpt p) = 0
      rw [heldAfter_append]
      have h1 : heldAfter (k ::ₘ pHeld p) [Ev.munlock k] = pHeld p :=
        congrArg (heldAfter · []) (Multiset.erase_cons_head k (pHeld p))
      rw [h1]
      exact heldAfter_unlockOpt p
    · by_cases hre : r = .leaf
      · by_cases ha : alloc <;>
          simp [bt_addGo, hc, hre, ha, rootKey, heldAfter, heldAfter_append,
            Multiset.erase_cons_head, heldAfter_unlockOpt]
      · simp only [bt_addGo, hc, if_neg hre, rootKey]
        show heldAfter (k ::ₘ pHeld p)
          ([Ev.mlock r.rootKey] ++ unlockOpt p ++ (bt_addGo alloc key value r (some k)).evs) = 0
        rw [heldAfter_append, heldAfter_append]
        have h1 : heldAfter (k ::ₘ pHeld p) [Ev.mlock r.rootKey]
            = r.rootKey ::ₘ k ::ₘ pHeld p := rfl
        rw [h1]
        have h2 : heldAfter (r.rootKey ::ₘ k ::ₘ pHeld p) (unlockOpt p)
            = r.rootKey ::ₘ pHeld (some k) := by
          cases p with
          | none => rfl
          | some q =>
            show (r.rootKey ::ₘ k ::ₘ q ::ₘ 0).erase q = _
            rw [erase_cons_cons]
            rfl
        rw [h2]
        exact ihr (some k) hre

/-- The lock-coupled descent of `find_min_locked` leaves exactly the
successor's and the successor's parent's mutexes held (it has already
unlocked `start` itself whenever it iterated at least once). -/
theorem find_min_held :
    ∀ (t : BTree), t ≠ .leaf → ∀ (p : String) (H : Multiset String),
      heldAfter (t.rootKey ::ₘ p ::ₘ H) (find_min_locked t p).evs =
        (find_min_locked t p).key ::ₘ (find_min_locked t p).par ::ₘ H := by
  intro t
  induction t with
  | leaf => intro h; exact absurd rfl h
  | node l k v r ihl ihr =>
    intro _ p H
    by_cases hl : l = .leaf
    · simp [find_min_locked, hl, rootKey, heldAfter]
    · simp only [find_min_locked, if_neg hl, rootKey]
      show heldAfter (k ::ₘ p ::ₘ H)
        ([Ev.mlock l.rootKey, Ev.munlock p] ++ (find_min_locked l k).evs) = _
      rw [heldAfter_append]
      have h1 : heldAfter (k ::ₘ p ::ₘ H) [Ev.mlock l.rootKey, Ev.munlock p]
          = l.rootKey ::ₘ k ::ₘ H := by
        show (l.rootKey ::ₘ k ::ₘ p ::ₘ H).erase p = _
        rw [erase_cons_cons]
      rw [h1]
      exact ihl hl k H

/-- When `bt_delete`'s search succeeds but the `strdup` of the successor's
key fails, the unwind releases every node mutex still held (the spurious
extra unlock of the already-released `cur` mutex is a no-op for the held
multiset). -/
theorem delGo_enomem_held (alloc useOut : Bool) (key : String) :
    ∀ (t : BTree) (p : Option String),
      (bt_delGo alloc useOut key t p).rc = ENOMEM →
      heldAfter (t.rootKey ::ₘ pHeld p) (bt_delGo alloc useOut key t p).evs = 0 := by
  intro t
  induction t with
  | leaf => intro p h; simp [bt_delGo, ENOMEM] at h
  | node l k v r ihl ihr =>
    intro p h
    rcases hc : strcmp key k with _ | _ | _
    · by_cases hle : l = .leaf
      · simp [bt_delGo, hc, hle, ENOMEM] at h
      · simp only [bt_delGo, hc, if_neg hle, rootKey] at h ⊢
        show heldAfter (k ::ₘ pHeld p)
          ([Ev.mlock l.rootKey] ++ unlockOpt p ++ (bt_delGo alloc useOut key l (some k)).evs) = 0
        rw [heldAfter_append, heldAfter_append]
        have h1 : heldAfter (k ::ₘ pHeld p) [Ev.mlock l.rootKey]
            = l.rootKey ::ₘ k ::ₘ pHeld p := rfl
        rw [h1]
        have h2 : heldAfter (l.rootKey ::ₘ k ::ₘ pHeld p) (unlockOpt p)
            = l.rootKey ::ₘ pHeld (some k) := by
          cases p with
          | none => rfl
          | some q =>
            show (l.rootKey ::ₘ k ::ₘ q ::ₘ 0).erase q = _
            rw [erase_cons_cons]
            rfl
        rw [h2]
        exact ihl (some k) h
    · by_cases hle : l = .leaf
      · simp [bt_delGo, hc, hle, ENOMEM] at h
      · by_cases hre : r = .leaf
        · simp [bt_delGo, hc, hle, hre, ENOMEM] at h
        · by_cases ha : alloc
          · simp [bt_delGo, hc, hle, hre, ha, ENOMEM] at h
          · simp only [bt_delGo, hc, if_neg hle, if_neg hre, ha, if_false,
              Bool.false_eq_true, rootKey]
            show heldAfter (k ::ₘ pHeld p)
              (([Ev.mlock r.rootKey] ++ (find_min_locked r k).evs) ++
               ([Ev.munlock (find_min_locked r k).key,
                 Ev.munlock (find_min_locked r k).par, Ev.munlock k] ++ unlockOpt p)) = 0
            rw [heldAfter_append, heldAfter_append, heldAfter_append]
            have h1 : heldAfter (k ::ₘ pHeld p) [Ev.mlock r.rootKey]
                = r.rootKey ::ₘ k ::ₘ pHeld p := rfl
            rw [h1]
            rw [find_min_held r hre k (pHeld p)]
            have h3 : heldAfter
                ((find_min_locked r k).key ::ₘ (find_min_locked r k).par ::ₘ pHeld p)
                [Ev.munlock (find_min_locked r k).key,
                 Ev.munlock (find_min_locked r k).par, Ev.munlock k]
                = (pHeld p).erase k := by
              show (((((find_min_locked r k).key ::ₘ (find_min_locked r k).par ::ₘ pHeld p).erase
                (find_min_locked r k).key).erase (find_min_locked r k).par).erase k) = _
              rw [Multiset.erase_cons_head, Multiset.erase_cons_head]
            rw [h3]
            exact heldAfter_unlockOpt_cons k p
    · by_cases hre : r = .leaf
      · simp [bt_delGo, hc, hre, ENOMEM] at h
      · simp only [bt_delGo, hc, if_neg hre, rootKey] at h ⊢
        show heldAfter (k ::ₘ pHeld p)
          ([Ev.mlock r.rootKey] ++ unlockOpt p ++ (bt_delGo alloc useOut key r (some k)).evs) = 0
        rw [heldAfter_append, heldAfter_append]
        have h1 : heldAfter (k ::ₘ pHeld p) [Ev.mlock r.rootKey]
            = r.rootKey ::ₘ k ::ₘ pHeld p := rfl
        rw [h1]
        have h2 : heldAfter (r.rootKey ::ₘ k ::ₘ pHeld p) (unlockOpt p)
            = r.rootKey ::ₘ pHeld (some k) := by
          cases p with
          | none => rfl
          | some q =>
            show (r.rootKey ::ₘ k ::ₘ q ::ₘ 0).erase q = _
            rw [erase_cons_cons]
            rfl
        rw [h2]
        exact ihr (some k) h

theorem rwAcquires_append (a b : List Ev) :
    rwAcquires (a ++ b) = rwAcquires a + rwAcquires b := by
  simp [rwAcquires, List.countP_append]

theorem rwReleases_append (a b : List Ev) :
    rwReleases (a ++ b) = rwReleases a + rwReleases b := by
  simp [rwReleases, List.countP_append]

theorem rw_unlockOpt_acq (p : Option String) : rwAcquires (unlockOpt p) = 0 := by
  cases p <;> rfl

theorem rw_unlockOpt_rel (p : Option String) : rwReleases (unlockOpt p) = 0 := by
  cases p <;> rfl

@[simp] theorem rwAcquires_nil : rwAcquires [] = 0 := rfl

@[simp] theorem rwAcquires_mlock (k : String) (evs : List Ev) :
    rwAcquires (.mlock k :: evs) = rwAcquires evs := by
  simp [rwAcquires, List.countP_cons]

@[simp] theorem rwAcquires_munlock (k : String) (evs : List Ev) :
    rwAcquires (.munlock k :: evs) = rwAcquires evs := by
  simp [rwAcquires, List.countP_cons]

@[simp] theorem rwReleases_nil : rwReleases [] = 0 := rfl

@[simp] theorem rwReleases_mlock (k : String) (evs : List Ev) :
    rwReleases (.mlock k :: evs) = rwReleases evs := by
  simp [rwReleases, List.countP_cons]

@[simp] theorem rwReleases_munlock (k : String) (evs : List Ev) :
    rwReleases (.munlock k :: evs) = rwReleases evs := by
  simp [rwReleases, List.countP_cons]

theorem addGo_rw (alloc : Bool) (key value : String) :
    ∀ (t : BTree) (p : Option String),
      rwAcquires (bt_addGo alloc key value t p).evs = 0 ∧
      rwReleases (bt_addGo alloc key value t p).evs = 0 := by
  intro t
  induction t with
  | leaf => intro p; exact ⟨rfl, rfl⟩
  | node l k v r ihl ihr =>
    intro p
    rcases hc : strcmp key k with _ | _ | _
    · by_cases hle : l = .leaf
      · cases p <;> by_cases ha : alloc <;>
          simp [bt_addGo, hc, hle, ha, unlockOpt, rwAcquires_append, rwReleases_append,
            rwAcquires, rwReleases]
      · obtain ⟨ih1, ih2⟩ := ihl (some k)
        cases p <;>
          simp [bt_addGo, hc, hle, unlockOpt, rwAcquires_append, rwReleases_append,
            ih1, ih2]
    · cases p <;>
        simp [bt_addGo, hc, unlockOpt, rwAcquires_append, rwReleases_append,
          rwAcquires, rwReleases]
    · by_cases hre : r = .leaf
      · cases p <;> by_cases ha : alloc <;>
          simp [bt_addGo, hc, hre, ha, unlockOpt, rwAcquires_append, rwReleases_append,
            rwAcquires, rwReleases]
      · obtain ⟨ih1, ih2⟩ := ihr (some k)
        cases p <;>
          simp [bt_addGo, hc, hre, unlockOpt, rwAcquires_append, rwReleases_append,
            ih1, ih2]

theorem find_min_rw :
    ∀ (t : BTree) (p : String),
      rwAcquires (find_min_locked t p).evs = 0 ∧
      rwReleases (find_min_locked t p).evs = 0 := by
  intro t
  induction t with
  | leaf => intro p; exact ⟨rfl, rfl⟩
  | node l k v r ihl ihr =>
    intro p
    by_cases hl : l = .leaf
    · simp [find_min_locked, hl]
    · obtain ⟨ih1, ih2⟩ := ihl k
      simp [find_min_locked, hl, rwAcquires_append, rwReleases_append,
        ih1, ih2]

theorem delGo_rw (alloc useOut : Bool) (key : String) :
    ∀ (t : BTree) (p : Option String),
      rwAcquires (bt_delGo alloc useOut key t p).evs = 0 ∧
      rwReleases (bt_delGo alloc useOut key t p).evs = 0 := by
  intro t
  induction t with
  | leaf => intro p; exact ⟨rfl, rfl⟩
  | node l k v r ihl ihr =>
    intro p
    rcases hc : strcmp key k with _ | _ | _
    · by_cases hle : l = .leaf
      · simp [bt_delGo, hc, hle]
      · obtain ⟨ih1, ih2⟩ := ihl (some k)
        cases p <;>
          simp [bt_delGo, hc, hle, unlockOpt, rwAcquires_append, rwReleases_append,
            ih1, ih2]
    · by_cases hle : l = .leaf
      · cases p <;>
          simp [bt_delGo, hc, hle, unlockOpt, rwAcquires_append, rwReleases_append,
            rwAcquires, rwReleases]
      · by_cases hre : r = .leaf
        · cases p <;>
            simp [bt_delGo, hc, hle, hre, unlockOpt, rwAcquires_append, rwReleases_append,
              rwAcquires, rwReleases]
        · obtain ⟨im1, im2⟩ := find_min_rw r k
          cases p <;> by_cases ha : alloc <;>
            simp [bt_delGo, hc, hle, hre, ha, unlockOpt, rwAcquires_append,
              rwReleases_append, im1, im2]
    · by_cases hre : r = .leaf
      · simp [bt_delGo, hc, hre]
      · obtain ⟨ih1, ih2⟩ := ihr (some k)
        cases p <;>
          simp [bt_delGo, hc, hre, unlockOpt, rwAcquires_append, rwReleases_append,
            ih1, ih2]

theorem bt_add_rw_balanced (alloc : Bool) (t : BTree) (key value : String) :
    rwAcquires (bt_add alloc t key value).evs = rwReleases (bt_add alloc t key value).evs := by
  cases t with
  | leaf => cases alloc <;> rfl
  | node l k v r =>
    obtain ⟨h1, h2⟩ := addGo_rw alloc key value (.node l k v r) none
    have e : (bt_add alloc (BTree.node l k v r) key value).evs
        = [Ev.wrlock, Ev.mlock k] ++ (bt_addGo alloc key value (.node l k v r) none).evs
          ++ [Ev.rwunlock] := rfl
    rw [e, rwAcquires_append, rwAcquires_append, rwReleases_append, rwReleases_append, h1, h2]
    rfl

theorem bt_delete_rw_balanced (alloc useOut : Bool) (t : BTree) (key : String) :
    rwAcquires (bt_delete alloc useOut t key).evs =
      rwReleases (bt_delete alloc useOut t key).evs := by
  cases t with
  | leaf => rfl
  | node l k v r =>
    obtain ⟨h1, h2⟩ := delGo_rw alloc useOut key (.node l k v r) none
    have e : (bt_delete alloc useOut (BTree.node l k v r) key).evs
        = [Ev.wrlock, Ev.mlock k] ++ (bt_delGo alloc useOut key (.node l k v r) none).evs
          ++ [Ev.rwunlock] := rfl
    rw [e, rwAcquires_append, rwAcquires_append, rwReleases_append, rwReleases_append, h1, h2]
    rfl

/-! ## Top-level operation facts -/

theorem isBST_bt_add (alloc : Bool) (t : BTree) (key value : String)
    (h : isBST t = true) : isBST (bt_add alloc t key value).tree = true := by
  cases t with
  | leaf => cases alloc <;> simp [bt_add, isBST, keys]
  | node l k v r => exact isBST_addGo alloc key value (.node l k v r) none h

theorem isBST_bt_delete (alloc useOut : Bool) (t : BTree) (key : String)
    (h : isBST t = true) : isBST (bt_delete alloc useOut t key).tree = true := by
  cases t with
  | leaf => exact h
  | node l k v r => exact isBST_delGo alloc useOut key (.node l k v r) none h

theorem bt_add_new_rc (t : BTree) (key value : String) (h : key ∉ keys t) :
    (bt_add true t key value).rc = 0 := by
  cases t with
  | leaf => rfl
  | node l k v r => exact addGo_new_rc value (.node l k v r) none h (by simp)

theorem bt_add_mem_self (t : BTree) (key value : String) :
    key ∈ keys (bt_add true t key value).tree := by
  cases t with
  | leaf => simp [bt_add, keys]
  | node l k v r => exact addGo_mem_self key value (.node l k v r) none (by simp)

theorem bt_add_replace (alloc : Bool) (t : BTree) (key value : String)
    (hb : isBST t = true) (hmem : key ∈ keys t) :
    (bt_add alloc t key value).rc = 1 ∧
    keyShapeList (bt_add alloc t key value).tree = keyShapeList t ∧
    keys (bt_add alloc t key value).tree = keys t ∧
    (bt_lookupGo key (bt_add alloc t key value).tree).1 = some value := by
  cases t with
  | leaf => simp [keys] at hmem
  | node l k v r => exact addGo_replace alloc value (.node l k v r) none hb hmem

theorem bt_add_held (alloc : Bool) (t : BTree) (key value : String) :
    heldAfter 0 (bt_add alloc t key value).evs = 0 := by
  cases t with
  | leaf => cases alloc <;> rfl
  | node l k v r =>
    have e : (bt_add alloc (BTree.node l k v r) key value).evs
        = [Ev.wrlock, Ev.mlock k] ++ (bt_addGo alloc key value (.node l k v r) none).evs
          ++ [Ev.rwunlock] := rfl
    rw [e, heldAfter_append, heldAfter_append]
    have h1 : heldAfter 0 [Ev.wrlock, Ev.mlock k] = (k ::ₘ 0 : Multiset String) := rfl
    rw [h1]
    have h2 := addGo_held alloc key value (.node l k v r) none (by simp)
    rw [show ((BTree.node l k v r).rootKey ::ₘ pHeld none) = (k ::ₘ 0 : Multiset String)
      from rfl] at h2
    rw [h2]
    rfl

theorem bt_delete_enomem_held (alloc useOut : Bool) (t : BTree) (key : String)
    (h : (bt_delete alloc useOut t key).rc = ENOMEM) :
    heldAfter 0 (bt_delete alloc useOut t key).evs = 0 := by
  cases t with
  | leaf => simp [bt_delete, ENOMEM] at h
  | node l k v r =>
    have hrc : (bt_delGo alloc useOut key (.node l k v r) none).rc = ENOMEM := h
    have e : (bt_delete alloc useOut (BTree.node l k v r) key).evs
        = [Ev.wrlock, Ev.mlock k] ++ (bt_delGo alloc useOut key (.node l k v r) none).evs
          ++ [Ev.rwunlock] := rfl
    rw [e, heldAfter_append, heldAfter_append]
    have h1 : heldAfter 0 [Ev.wrlock, Ev.mlock k] = (k ::ₘ 0 : Multiset String) := rfl
    rw [h1]
    have h2 := delGo_enomem_held alloc useOut key (.node l k v r) none hrc
    rw [show ((BTree.node l k v r).rootKey ::ₘ pHeld none) = (k ::ₘ 0 : Multiset String)
      from rfl] at h2
    rw [h2]
    rfl

theorem bt_add_enomem_tree (alloc : Bool) (t : BTree) (key value : String)
    (h : (bt_add alloc t key value).rc = ENOMEM) :
    (bt_add alloc t key value).tree = t := by
  cases t with
  | leaf =>
    cases alloc with
    | false => rfl
    | true => simp [bt_add, ENOMEM] at h
  | node l k v r => exact addGo_enomem_tree alloc key value (.node l k v r) none h

theorem bt_delete_enomem_tree (alloc useOut : Bool) (t : BTree) (key : String)
    (h : (bt_delete alloc useOut t key).rc = ENOMEM) :
    (bt_delete alloc useOut t key).tree = t := by
  cases t with
  | leaf => rfl
  | node l k v r => exact delGo_enomem_tree alloc useOut key (.node l k v r) none h

theorem isBST_subtreeAt :
    ∀ (t : BTree) (key : String) (s : BTree),
      isBST t = true → subtreeAt t key = some s → isBST s = true := by
  intro t
  induction t with
  | leaf => intro key s _ hs; cases hs
  | node L K V R ihl ihr =>
    intro key s hb hs
    rcases isBST_node.mp hb with ⟨_, _, hbL, hbR⟩
    rcases hc : strcmp key K with _ | _ | _ <;> rw [subtreeAt, hc] at hs
    · exact ihl key s hbL hs
    · cases hs; exact hb
    · exact ihr key s hbR hs

/-! ## Teardown facts -/

theorem node_free_perm :
    ∀ t : BTree, (node_free_recursive true t).Perm (inorderVals t) := by
  intro t
  induction t with
  | leaf => simp [node_free_recursive, inorderVals]
  | node l k v r ihl ihr =>
    show ((node_free_recursive true l ++ node_free_recursive true r) ++ [v]).Perm
      ((inorderVals l ++ [v]) ++ inorderVals r)
    refine (List.Perm.append (List.Perm.append ihl ihr) (List.Perm.refl [v])).trans ?_
    rw [List.append_assoc, List.append_assoc]
    exact List.Perm.append_left _ List.perm_append_comm

theorem node_free_none : ∀ t : BTree, node_free_recursive false t = [] := by
  intro t
  induction t with
  | leaf => rfl
  | node l k v r ihl ihr => simp [node_free_recursive, ihl, ihr]

/-! ## Sequences of operations -/

theorem isBST_foldl (ops : List Op) :
    ∀ t : BTree, isBST t = true → isBST (ops.foldl applyOp t) = true := by
  induction ops with
  | nil => intro t h; exact h
  | cons op ops ih =>
    intro t h
    cases op with
    | add alloc k v => exact ih _ (isBST_bt_add alloc t k v h)
    | del alloc useOut k => exact ih _ (isBST_bt_delete alloc useOut t k h)

theorem isBST_runOps (ops : List Op) : isBST (runOps ops) = true :=
  isBST_foldl ops .leaf rfl

/-! ## Claims -/

/-- C1 (counterexample): in the demo sequence, deleting "b" (which has two
children) with an out pointer reports status deleted (0) but hands back the
successor's value "charlie", not "bravo" as the claim states. -/
theorem C1_counterexample :
    (bt_delete true true demoTree "b").rc = 0 ∧
    (bt_delete true true demoTree "b").out ≠ some "bravo" := by
  exact ⟨by decide, by decide⟩

/-- C1 (amended): insert (d,delta), (b,bravo), (a,alpha), (c,charlie),
(e,echo) into an empty tree; lookup "c" finds "charlie"; delete "b" with an
out pointer reports deleted with removed value "charlie" (the in-order
successor's value — the documented delete asymmetry); a subsequent lookup
of "b" is not-found; the in-order key sequence is a, c, d, e. -/
theorem C1_demo_roundtrip :
    (bt_lookup demoTree "c").1 = some "charlie" ∧
    (bt_delete true true demoTree "b").rc = 0 ∧
    (bt_delete true true demoTree "b").out = some "charlie" ∧
    (bt_lookup (bt_delete true true demoTree "b").tree "b").1 = none ∧
    keys (bt_delete true true demoTree "b").tree = ["a", "c", "d", "e"] := by
  exact ⟨by decide, by decide, by decide, by decide, by decide⟩

/-- C2: deleting a key whose node has two children from a BST copies the
in-order successor's key (the leftmost key of the right subtree) onto the
node matching the search key, splices out the successor's node (the
matched position survives, holding the successor's key), hands the
successor's value to the caller through the out pointer when one is
supplied (and otherwise stores it at the matched node), leaves the
in-order key sequence equal to the original minus the deleted key, and
preserves the BST invariant. -/
theorem C2_delete_two_children (t : BTree) (key : String) (useOut : Bool)
    (l r : BTree) (v mk mv : String)
    (hb : isBST t = true) (hs : subtreeAt t key = some (.node l key v r))
    (hl : l ≠ .leaf) (hr : r ≠ .leaf) (hmin : minKV r = some (mk, mv)) :
    (bt_delete true useOut t key).rc = 0 ∧
    (bt_delete true useOut t key).out = (if useOut then some mv else none) ∧
    (∃ r2, subtreeAt (bt_delete true useOut t key).tree mk
        = some (.node l mk (if useOut then v else mv) r2) ∧ keys r = mk :: keys r2) ∧
    keys (bt_delete true useOut t key).tree = (keys t).erase key ∧
    isBST (bt_delete true useOut t key).tree = true := by
  cases t with
  | leaf => cases hs
  | node L K V R =>
    exact delGo_two_shape useOut key l r v mk mv hl hr hmin (.node L K V R) none hb hs

/-- C2 (witness): the demo tree, deleting "b" (children "a" and "c"). -/
theorem C2_delete_two_children_witness :
    (isBST demoTree = true ∧
     subtreeAt demoTree "b" =
       some (.node (.node .leaf "a" "alpha" .leaf) "b" "bravo"
         (.node .leaf "c" "charlie" .leaf))) ∧
    ((bt_delete true true demoTree "b").rc = 0 ∧
     (bt_delete true true demoTree "b").out = some "charlie" ∧
     keys (bt_delete true true demoTree "b").tree = (keys demoTree).erase "b" ∧
     isBST (bt_delete true true demoTree "b").tree = true) :=
  ⟨⟨by decide, by decide⟩, by
    obtain ⟨h1, h2, _, h4, h5⟩ := C2_delete_two_children demoTree "b" true
      (.node .leaf "a" "alpha" .leaf) (.node .leaf "c" "charlie" .leaf)
      "bravo" "c" "charlie" (by decide) (by decide) (by decide) (by decide) (by decide)
    exact ⟨h1, by simpa using h2, h4, h5⟩⟩

/-- C3: every sequence of insert-or-replace and delete operations applied
to an initially empty tree yields a valid binary search tree: the
node-wise ordering invariant holds, equivalently the in-order key sequence
is strictly increasing under `strcmp`. -/
theorem C3_bst_invariant (ops : List Op) :
    isBST (runOps ops) = true ∧
    (keys (runOps ops)).Pairwise (fun a b => strcmp a b = .lt) ∧
    (keys (runOps ops)).Chain' (fun a b => strcmp a b = .lt) := by
  have h := isBST_runOps ops
  have hp := pairwise_of_isBST _ h
  exact ⟨h, hp, hp.chain'⟩

/-- C4: inserting a fresh key reports "inserted" (0); inserting it again
reports "replaced" (1); afterwards the tree has exactly one node for the
key, the tree's key storage (shape and every stored key) is exactly what
the first insert built — only the value was swapped — and lookup returns
the second value. -/
theorem C4_insert_then_replace (t : BTree) (k v1 v2 : String)
    (hb : isBST t = true) (hk : k ∉ keys t) :
    (bt_add true t k v1).rc = 0 ∧
    (bt_add true (bt_add true t k v1).tree k v2).rc = 1 ∧
    (keys (bt_add true (bt_add true t k v1).tree k v2).tree).count k = 1 ∧
    keyShapeList (bt_add true (bt_add true t k v1).tree k v2).tree
      = keyShapeList (bt_add true t k v1).tree ∧
    (bt_lookupGo k (bt_add true (bt_add true t k v1).tree k v2).tree).1 = some v2 := by
  have hb1 : isBST (bt_add true t k v1).tree = true := isBST_bt_add true t k v1 hb
  have hmem1 : k ∈ keys (bt_add true t k v1).tree := bt_add_mem_self t k v1
  obtain ⟨hrc2, hshape, hkeys2, hlook⟩ :=
    bt_add_replace true (bt_add true t k v1).tree k v2 hb1 hmem1
  have hb2 : isBST (bt_add true (bt_add true t k v1).tree k v2).tree = true :=
    isBST_bt_add true _ k v2 hb1
  have hnodup := nodup_keys_of_isBST _ hb2
  have hmem2 : k ∈ keys (bt_add true (bt_add true t k v1).tree k v2).tree := by
    rw [hkeys2]; exact hmem1
  exact ⟨bt_add_new_rc t k v1 hk, hrc2, List.count_eq_one_of_mem hnodup hmem2,
    hshape, hlook⟩

/-- C4 (witness): inserting "a" twice into the empty tree. -/
theorem C4_insert_then_replace_witness :
    (isBST BTree.leaf = true ∧ "a" ∉ keys BTree.leaf) ∧
    ((bt_add true BTree.leaf "a" "x").rc = 0 ∧
     (bt_add true (bt_add true BTree.leaf "a" "x").tree "a" "y").rc = 1 ∧
     (keys (bt_add true (bt_add true BTree.leaf "a" "x").tree "a" "y").tree).count "a" = 1 ∧
     (bt_lookupGo "a" (bt_add true (bt_add true BTree.leaf "a" "x").tree "a" "y").tree).1
       = some "y") :=
  ⟨⟨by decide, by decide⟩, by
    obtain ⟨h1, h2, h3, _, h5⟩ := C4_insert_then_replace .leaf "a" "x" "y" (by decide) (by decide)
    exact ⟨h1, h2, h3, h5⟩⟩

/-- C5: an insert or delete that fails with out-of-memory leaves the
tree's shape and contents exactly as before the call (failure is detected
before any structural mutation), the held node-mutex multiset drains to
empty by return, and tree-lock acquisitions match releases. -/
theorem C5_oom_atomicity (alloc useOut : Bool) (t : BTree) (key value : String) :
    ((bt_add alloc t key value).rc = ENOMEM →
      (bt_add alloc t key value).tree = t ∧
      heldAfter 0 (bt_add alloc t key value).evs = 0 ∧
      rwAcquires (bt_add alloc t key value).evs
        = rwReleases (bt_add alloc t key value).evs) ∧
    ((bt_delete alloc useOut t key).rc = ENOMEM →
      (bt_delete alloc useOut t key).tree = t ∧
      heldAfter 0 (bt_delete alloc useOut t key).evs = 0 ∧
      rwAcquires (bt_delete alloc useOut t key).evs
        = rwReleases (bt_delete alloc useOut t key).evs) := by
  constructor
  · intro h
    exact ⟨bt_add_enomem_tree alloc t key value h, bt_add_held alloc t key value,
      bt_add_rw_balanced alloc t key value⟩
  · intro h
    exact ⟨bt_delete_enomem_tree alloc useOut t key h,
      bt_delete_enomem_held alloc useOut t key h,
      bt_delete_rw_balanced alloc useOut t key⟩

/-- C5 (witness): a failing root insert into the empty tree, and a failing
`strdup` while deleting the two-children key "b" of the demo tree. -/
theorem C5_oom_atomicity_witness :
    ((bt_add false BTree.leaf "a" "x").rc = ENOMEM ∧
     ((bt_add false BTree.leaf "a" "x").tree = BTree.leaf ∧
      heldAfter 0 (bt_add false BTree.leaf "a" "x").evs = 0 ∧
      rwAcquires (bt_add false BTree.leaf "a" "x").evs
        = rwReleases (bt_add false BTree.leaf "a" "x").evs)) ∧
    ((bt_delete false true demoTree "b").rc = ENOMEM ∧
     ((bt_delete false true demoTree "b").tree = demoTree ∧
      heldAfter 0 (bt_delete false true demoTree "b").evs = 0 ∧
      rwAcquires (bt_delete false true demoTree "b").evs
        = rwReleases (bt_delete false true demoTree "b").evs)) :=
  ⟨⟨by decide, (C5_oom_atomicity false true BTree.leaf "a" "x").1 (by decide)⟩,
   ⟨by decide, (C5_oom_atomicity false true demoTree "b" "x").2 (by decide)⟩⟩

/-- C6 (counterexample): an empty (zero-length) key is not rejected:
inserting key "" into an empty tree reports "inserted" (0), not
invalid-argument, and the tree is mutated. -/
theorem C6_counterexample :
    (bt_add_c true (some .leaf) (some "") "x").2.1 = 0 ∧
    (bt_add_c true (some .leaf) (some "") "x").2.1 ≠ EINVAL ∧
    (bt_add_c true (some .leaf) (some "") "x").1 = some (.node .leaf "" "x" .leaf) := by
  exact ⟨by decide, by decide, by decide⟩

/-- C6 (amended): a null tree handle or a null key makes every operation
return invalid-argument (`EINVAL`; lookup reports not-found), before any
lock event and without touching the tree; an empty string is an ordinary
key. -/
theorem C6_null_args (t : BTree) (key : Option String) (value : String)
    (alloc useOut : Bool) :
    bt_init none = (none, EINVAL) ∧
    bt_lookup_c none key = (none, none, []) ∧
    bt_lookup_c (some t) none = (some t, none, []) ∧
    bt_add_c alloc none key value = (none, EINVAL, []) ∧
    bt_add_c alloc (some t) none value = (some t, EINVAL, []) ∧
    bt_delete_c alloc useOut none key = (none, EINVAL, none, []) ∧
    bt_delete_c alloc useOut (some t) none = (some t, EINVAL, none, []) := by
  refine ⟨rfl, ?_, rfl, ?_, rfl, ?_, rfl⟩ <;> cases key <;> rfl

/-- C7: destroying a tree with a value-release callback releases exactly
the values stored in the tree, one per node (a permutation of the in-order
value sequence — no leak, no double release), in post-order (both
children's releases precede the parent's), and clears the root; with no
callback, nothing is released. -/
theorem C7_destroy_release (t l r : BTree) (k v : String) :
    ((bt_destroy true t).2).Perm (inorderVals t) ∧
    (bt_destroy true (.node l k v r)).2
      = (bt_destroy true l).2 ++ (bt_destroy true r).2 ++ [v] ∧
    (bt_destroy true t).1 = .leaf ∧
    (bt_destroy false t).1 = .leaf ∧
    (bt_destroy false t).2 = [] := by
  exact ⟨node_free_perm t, rfl, rfl, rfl, node_free_none t⟩

/-- C8: after deleting a two-children key with an out pointer supplied,
the matched node keeps its original value while taking the successor's
key, so looking the successor's key up afterwards returns the deleted
node's former value — not the value previously associated with the
successor's key. -/
theorem C8_lookup_after_two_child_delete (t : BTree) (key : String)
    (l r : BTree) (v mk mv : String)
    (hb : isBST t = true) (hs : subtreeAt t key = some (.node l key v r))
    (hl : l ≠ .leaf) (hr : r ≠ .leaf) (hmin : minKV r = some (mk, mv)) :
    (∃ r2, subtreeAt (bt_delete true true t key).tree mk = some (.node l mk v r2)) ∧
    (bt_lookupGo mk (bt_delete true true t key).tree).1 = some v ∧
    (bt_lookupGo mk t).1 = some mv ∧
    (v ≠ mv → (bt_lookupGo mk (bt_delete true true t key).tree).1 ≠ some mv) := by
  have hbs : isBST (BTree.node l key v r) = true := isBST_subtreeAt t key _ hb hs
  rcases isBST_node.mp hbs with ⟨_, hkr, _, hbr⟩
  have hmkr : mk ∈ keys r := minKV_mem r mk mv hmin
  have hmks : mk ∈ keys (BTree.node l key v r) := by simp [keys]; tauto
  have hgt : strcmp mk key = .gt := (strcmp_gt_iff mk key).mpr (hkr mk hmkr)
  have hpre : (bt_lookupGo mk t).1 = some mv := by
    rw [lookup_in_subtree t key _ hb hs mk hmks]
    show (bt_lookupGo mk (BTree.node l key v r)).1 = some mv
    simp only [bt_lookupGo, hgt]
    exact lookup_minKV r mk mv hbr hmin
  cases t with
  | leaf => cases hs
  | node L K V R =>
    obtain ⟨_, _, ⟨r2, hsub, _⟩, _, hbst⟩ :=
      delGo_two_shape true key l r v mk mv hl hr hmin (.node L K V R) none hb hs
    have hsub2 : subtreeAt (bt_delete true true (BTree.node L K V R) key).tree mk
        = some (.node l mk v r2) := by
      have : (if true then v else mv) = v := rfl
      rw [← this]
      exact hsub
    have hlook : (bt_lookupGo mk (bt_delete true true (BTree.node L K V R) key).tree).1
        = some v :=
      lookup_subtreeAt _ mk l r2 v hbst hsub2
    refine ⟨⟨r2, hsub2⟩, hlook, hpre, ?_⟩
    intro hne hcontra
    rw [hlook] at hcontra
    injection hcontra with hcontra
    exact hne hcontra

/-- C8 (witness): the demo tree, deleting "b"; a lookup of "c" afterwards
returns "bravo", not "charlie". -/
theorem C8_lookup_after_two_child_delete_witness :
    (isBST demoTree = true ∧
     subtreeAt demoTree "b" =
       some (.node (.node .leaf "a" "alpha" .leaf) "b" "bravo"
         (.node .leaf "c" "charlie" .leaf))) ∧
    ((bt_lookupGo "c" (bt_delete true true demoTree "b").tree).1 = some "bravo" ∧
     (bt_lookupGo "c" demoTree).1 = some "charlie" ∧
     (bt_lookupGo "c" (bt_delete true true demoTree "b").tree).1 ≠ some "charlie") :=
  ⟨⟨by decide, by decide⟩, by
    obtain ⟨_, h2, h3, h4⟩ := C8_lookup_after_two_child_delete demoTree "b"
      (.node .leaf "a" "alpha" .leaf) (.node .leaf "c" "charlie" .leaf)
      "bravo" "c" "charlie" (by decide) (by decide) (by decide) (by decide) (by decide)
    exact ⟨h2, h3, h4 (by decide)⟩⟩

/-- C9: when delete finds the sought key, whose node has two children, and
the `strdup` of the successor's key then fails, the status is `ENOMEM` and
the tree is unchanged — but the found node's value has already been
written through the caller's out pointer. -/
theorem C9_oom_out_overwrite (t : BTree) (key : String) (l r : BTree) (v : String)
    (hs : subtreeAt t key = some (.node l key v r)) (hl : l ≠ .leaf) (hr : r ≠ .leaf) :
    (bt_delete false true t key).rc = ENOMEM ∧
    (bt_delete false true t key).out = some v ∧
    (bt_delete false true t key).tree = t := by
  cases t with
  | leaf => cases hs
  | node L K V R =>
    obtain ⟨h1, h2, h3⟩ := delGo_two_enomem true key l r v hl hr (.node L K V R) none hs
    exact ⟨h1, by simpa using h2, h3⟩

/-- C9 (witness): the demo tree, deleting "b" with a failing `strdup`:
status `ENOMEM`, tree unchanged, and the out pointer already holds
"bravo". -/
theorem C9_oom_out_overwrite_witness :
    (subtreeAt demoTree "b" =
       some (.node (.node .leaf "a" "alpha" .leaf) "b" "bravo"
         (.node .leaf "c" "charlie" .leaf))) ∧
    ((bt_delete false true demoTree "b").rc = ENOMEM ∧
     (bt_delete false true demoTree "b").out = some "bravo" ∧
     (bt_delete false true demoTree "b").tree = demoTree) :=
  ⟨by decide,
   C9_oom_out_overwrite demoTree "b" (.node .leaf "a" "alpha" .leaf)
     (.node .leaf "c" "charlie" .leaf) "bravo" (by decide) (by decide) (by decide)⟩

end BtreeDemo
